import Mathlib

/-!
Verification of the fractal computation and rendering engine of the
`toy_fractals` repository against its natural-language specification.

The Python source is shallowly embedded: machine floating-point numbers are
modelled by exact rationals (`ℚ`) for the iteration / viewport arithmetic and
by real numbers (`ℝ`) where transcendental functions (`log`, `sqrt`, `sin`)
appear.  Loops become structural recursions, numpy arrays over pixels become
`List (List ℝ)` grids or functions `ℕ × ℕ → ℚ`, and the stochastic choice of
`np.random` is modelled by an explicit choice sequence parameter.  Fallible
code paths (Python exceptions) are modelled with `Option`.
-/

set_option maxHeartbeats 1000000

/-- Viewport bounds rectangle, from `renderer_2d.py` (`current_bounds` tuples
`(xmin, xmax, ymin, ymax)`). -/
@[ext]
structure Bounds where
  xmin : ℚ
  xmax : ℚ
  ymin : ℚ
  ymax : ℚ
deriving DecidableEq

/-- Width `xmax - xmin` of a bounds rectangle. -/
def Bounds.width (b : Bounds) : ℚ := b.xmax - b.xmin

/-- Height `ymax - ymin` of a bounds rectangle. -/
def Bounds.height (b : Bounds) : ℚ := b.ymax - b.ymin

/-- Embedding of `FractalRenderer2D.pixel_to_fractal` (renderer_2d.py):
`fx = xmin + (px / width) * (xmax - xmin)`, similarly for `fy`. -/
def pixel_to_fractal (w h : ℕ) (b : Bounds) (px py : ℚ) : ℚ × ℚ :=
  (b.xmin + px / w * (b.xmax - b.xmin), b.ymin + py / h * (b.ymax - b.ymin))

/-- Embedding of `FractalRenderer2D.zoom` (renderer_2d.py): converts the pixel
centre to fractal coordinates `(fx, fy)` and replaces the bounds by a
rectangle of width `(xmax - xmin)/factor` and height `(ymax - ymin)/factor`
centred at `(fx, fy)`. -/
def zoom (w h : ℕ) (b : Bounds) (cx cy f : ℚ) : Bounds :=
  let fx := b.xmin + cx / w * (b.xmax - b.xmin)
  let fy := b.ymin + cy / h * (b.ymax - b.ymin)
  let nw := (b.xmax - b.xmin) / f
  let nh := (b.ymax - b.ymin) / f
  ⟨fx - nw / 2, fx + nw / 2, fy - nh / 2, fy + nh / 2⟩

/-- Embedding of `FractalRenderer2D.pan` (renderer_2d.py): translates the
bounds by the coordinate-space delta `(dx/width * (xmax - xmin),
dy/height * (ymax - ymin))`. -/
def pan (w h : ℕ) (b : Bounds) (dx dy : ℚ) : Bounds :=
  let fxd := dx / w * (b.xmax - b.xmin)
  let fyd := dy / h * (b.ymax - b.ymin)
  ⟨b.xmin + fxd, b.xmax + fxd, b.ymin + fyd, b.ymax + fyd⟩

/-- C10: pan translates xmin/xmax (resp. ymin/ymax) by one common
coordinate-space delta, so the bounds width and height are exactly unchanged
by pan. -/
theorem c10_pan_frame (w h : ℕ) (b : Bounds) (dx dy : ℚ) :
    (pan w h b dx dy).xmin - b.xmin = (pan w h b dx dy).xmax - b.xmax ∧
    (pan w h b dx dy).ymin - b.ymin = (pan w h b dx dy).ymax - b.ymax ∧
    (pan w h b dx dy).width = b.width ∧
    (pan w h b dx dy).height = b.height := by
  refine ⟨?_, ?_, ?_, ?_⟩ <;>
    simp only [pan, Bounds.width, Bounds.height] <;> ring

/-- C1 (counterexample): with a 100×100 canvas, bounds (0,1,0,1), pixel
(0,0) and factor 2, the coordinate under pixel (0,0) changes under `zoom`
(the code recentres the view on the clicked coordinate), and
`zoom(0,0,2)` followed by `zoom(0,0,1/2)` moves `xmin` from 0 to -3/4,
far outside a 1e-9 relative tolerance.  This refutes the claim as stated. -/
theorem c1_counterexample :
    ¬ (pixel_to_fractal 100 100 (zoom 100 100 ⟨0, 1, 0, 1⟩ 0 0 2) 0 0
         = pixel_to_fractal 100 100 ⟨0, 1, 0, 1⟩ 0 0
       ∧ |(zoom 100 100 (zoom 100 100 ⟨0, 1, 0, 1⟩ 0 0 2) 0 0 (1 / 2)).xmin
            - (0 : ℚ)| ≤ 1 / 1000000000) := by
  rintro ⟨-, hB⟩
  norm_num [zoom, abs_le] at hB

/-- C1 (amended): `zoom(cx, cy, f)` scales the bounds width and height by
`1/f` and recentres the view on the coordinate that was under pixel
(cx, cy); consequently the coordinate under the clicked pixel is preserved
only when that pixel is the canvas centre, in which case `zoom(c, f)`
followed by `zoom(c, 1/f)` restores the original bounds exactly. -/
theorem c1_zoom_recenters (w h : ℕ) (b : Bounds) (cx cy f : ℚ)
    (hw : 0 < w) (hh : 0 < h) (hf : 0 < f) :
    (zoom w h b cx cy f).width = b.width / f ∧
    (zoom w h b cx cy f).height = b.height / f ∧
    ((zoom w h b cx cy f).xmin + (zoom w h b cx cy f).xmax) / 2
      = (pixel_to_fractal w h b cx cy).1 ∧
    ((zoom w h b cx cy f).ymin + (zoom w h b cx cy f).ymax) / 2
      = (pixel_to_fractal w h b cx cy).2 ∧
    (cx = w / 2 → cy = h / 2 →
      zoom w h (zoom w h b cx cy f) cx cy (1 / f) = b) := by
  have hw0 : ((w : ℚ)) ≠ 0 := by positivity
  have hh0 : ((h : ℚ)) ≠ 0 := by positivity
  have hf0 : f ≠ 0 := ne_of_gt hf
  refine ⟨?_, ?_, ?_, ?_, ?_⟩
  · simp only [zoom, Bounds.width]; ring
  · simp only [zoom, Bounds.height]; ring
  · simp only [zoom, pixel_to_fractal]; ring
  · simp only [zoom, pixel_to_fractal]; ring
  · intro hcx hcy
    subst hcx; subst hcy
    ext <;> simp only [zoom] <;> field_simp <;> ring

/-- C1 witness: instantiates the amended zoom theorem on a concrete
100×100 canvas with bounds (0,1,0,1), centre pixel (50,50) and factor 2. -/
theorem c1_zoom_recenters_witness :
    (zoom 100 100 ⟨0, 1, 0, 1⟩ 50 50 2).width = (Bounds.mk 0 1 0 1).width / 2 ∧
    (zoom 100 100 ⟨0, 1, 0, 1⟩ 50 50 2).height = (Bounds.mk 0 1 0 1).height / 2 ∧
    ((zoom 100 100 ⟨0, 1, 0, 1⟩ 50 50 2).xmin
        + (zoom 100 100 ⟨0, 1, 0, 1⟩ 50 50 2).xmax) / 2
      = (pixel_to_fractal 100 100 ⟨0, 1, 0, 1⟩ 50 50).1 ∧
    ((zoom 100 100 ⟨0, 1, 0, 1⟩ 50 50 2).ymin
        + (zoom 100 100 ⟨0, 1, 0, 1⟩ 50 50 2).ymax) / 2
      = (pixel_to_fractal 100 100 ⟨0, 1, 0, 1⟩ 50 50).2 ∧
    ((50 : ℚ) = (100 : ℕ) / 2 → (50 : ℚ) = (100 : ℕ) / 2 →
      zoom 100 100 (zoom 100 100 ⟨0, 1, 0, 1⟩ 50 50 2) 50 50 (1 / 2)
        = ⟨0, 1, 0, 1⟩) :=
  c1_zoom_recenters 100 100 ⟨0, 1, 0, 1⟩ 50 50 2
    (by decide) (by decide) (by norm_num)

/-- Squared complex magnitude `zr*zr + zi*zi` of an iterate; the kernels in
`escape_time.py` compare `abs(z) > 2.0` (equivalently `zr*zr+zi*zi > 4.0`,
which `burning_ship_kernel` uses literally). -/
def magSq (z : ℚ × ℚ) : ℚ := z.1 * z.1 + z.2 * z.2

/-- One Mandelbrot iteration `z := z*z + c` from `mandelbrot_kernel`
(escape_time.py), written on real/imaginary parts. -/
def mandelStep (c z : ℚ × ℚ) : ℚ × ℚ :=
  (z.1 * z.1 - z.2 * z.2 + c.1, 2 * z.1 * z.2 + c.2)

/-- One Burning Ship iteration from `burning_ship_kernel` (escape_time.py):
`zr_temp = zr*zr - zi*zi + cr; zi = abs(2*zr*zi) + ci; zr = abs(zr_temp)`. -/
def shipStep (c z : ℚ × ℚ) : ℚ × ℚ :=
  (|z.1 * z.1 - z.2 * z.2 + c.1|, |2 * z.1 * z.2| + c.2)

/-- The per-pixel escape loop common to the kernels in `escape_time.py`:
`for i in range(max_iter): if |z| > 2: return (i, z); z = step(z)`.
Returns `some (i, z)` at the first loop index whose iterate has magnitude
squared above `4`, and `none` if the budget is exhausted. -/
def escapeLoop (step : ℚ × ℚ → ℚ × ℚ) : ℚ × ℚ → ℕ → ℕ → Option (ℕ × (ℚ × ℚ))
  | _, _, 0 => none
  | z, i, fuel + 1 =>
    if 4 < magSq z then some (i, z)
    else escapeLoop step (step z) (i + 1) fuel

/-- Smooth-coloring pixel value from the kernels in `escape_time.py`: on
escape at `(i, z)` the value is `i + 1 - log2(log2(|z|))`; on non-escape the
value is the budget `max_iter` itself. -/
noncomputable def smoothValue (N : ℕ) : Option (ℕ × (ℚ × ℚ)) → ℝ
  | some (i, z) => (i : ℝ) + 1 - Real.logb 2 (Real.logb 2 (Real.sqrt (magSq z)))
  | none => N

/-- Pixel value of `mandelbrot_kernel` (escape_time.py): seed `z = 0`,
constant `c` the pixel coordinate. -/
noncomputable def mandelbrotValue (c : ℚ × ℚ) (N : ℕ) : ℝ :=
  smoothValue N (escapeLoop (mandelStep c) (0, 0) 0 N)

/-- Pixel value of `burning_ship_kernel` (escape_time.py): seed `z = 0`,
constant `c` the pixel coordinate. -/
noncomputable def burningShipValue (c : ℚ × ℚ) (N : ℕ) : ℝ :=
  smoothValue N (escapeLoop (shipStep c) (0, 0) 0 N)

/-- Pixel-to-coordinate map of the kernels in `escape_time.py`:
`dx = (hi - lo)/n; coord = lo + px*dx`. -/
def pixelCoord (lo hi : ℚ) (n px : ℕ) : ℚ := lo + px * ((hi - lo) / n)

/-- The full Mandelbrot scalar field of `mandelbrot_kernel`
(escape_time.py): a `height × width` grid of smooth escape values. -/
noncomputable def mandelbrotField (b : Bounds) (w h N : ℕ) : List (List ℝ) :=
  (List.range h).map fun py => (List.range w).map fun px =>
    mandelbrotValue (pixelCoord b.xmin b.xmax w px, pixelCoord b.ymin b.ymax h py) N

/-- `EscapeTimeFractal.adaptive_iterations` (base.py):
`min(int(base_iter * (1 + log10(max(1, zoom_level)))), 2000)`.  Python
`int()` truncates toward zero; the argument is nonnegative, so truncation
agrees with the floor used here. -/
noncomputable def adaptiveIterations (baseIter : ℕ) (zl : ℝ) : ℕ :=
  min (Int.toNat ⌊(baseIter : ℝ) * (1 + Real.logb 10 (max 1 zl))⌋) 2000

/-- `MandelbrotSet.get_default_bounds` (escape_time.py):
`(-2.5, 1.0, -1.25, 1.25)`. -/
def mandelbrotDefaultBounds : Bounds := ⟨-5/2, 1, -5/4, 5/4⟩

/-- `MandelbrotSet.compute` (escape_time.py): resolves
`zoom_level = 4.0 / (xmax - xmin)` (a `ZeroDivisionError`, modelled as
`none`, when the bounds have zero width), replaces the iteration budget by
`adaptive_iterations` of the instance budget when `adaptive_iter` is set,
and runs the kernel.  No configuration validation is performed. -/
noncomputable def mandelbrotCompute (instIter : ℕ) (adaptive : Bool) (paramIter : ℕ)
    (w h : ℕ) (b : Bounds) : Option (List (List ℝ)) :=
  if b.xmax - b.xmin = 0 then none
  else some (mandelbrotField b w h
    (if adaptive then adaptiveIterations instIter ((4 : ℝ) / ((b.xmax - b.xmin : ℚ) : ℝ))
     else paramIter))

lemma escapeLoop_eq_none (step : ℚ × ℚ → ℚ × ℚ) :
    ∀ (fuel : ℕ) (z : ℚ × ℚ) (i : ℕ),
      (∀ k, k < fuel → magSq (step^[k] z) ≤ 4) → escapeLoop step z i fuel = none := by
  intro fuel
  induction fuel with
  | zero => intro z i _; rfl
  | succ n ih =>
    intro z i h
    have h0 : magSq z ≤ 4 := by simpa using h 0 (Nat.succ_pos n)
    rw [escapeLoop, if_neg (not_lt.mpr h0)]
    apply ih
    intro k hk
    simpa [Function.iterate_succ_apply] using h (k + 1) (Nat.succ_lt_succ hk)

lemma escapeLoop_eq_some (step : ℚ × ℚ → ℚ × ℚ) :
    ∀ (fuel : ℕ) (z : ℚ × ℚ) (i j : ℕ), j < fuel →
      (∀ k, k < j → magSq (step^[k] z) ≤ 4) → 4 < magSq (step^[j] z) →
      escapeLoop step z i fuel = some (i + j, step^[j] z) := by
  intro fuel
  induction fuel with
  | zero => intro z i j hj; exact absurd hj (Nat.not_lt_zero j)
  | succ n ih =>
    intro z i j hj hmin hesc
    cases j with
    | zero =>
      simp only [Function.iterate_zero, id] at hesc
      rw [escapeLoop, if_pos hesc]
      simp
    | succ j =>
      have h0 : magSq z ≤ 4 := by simpa using hmin 0 (Nat.succ_pos j)
      rw [escapeLoop, if_neg (not_lt.mpr h0)]
      have hrec := ih (step z) (i + 1) j (Nat.lt_of_succ_lt_succ hj)
        (fun k hk => by
          simpa [Function.iterate_succ_apply] using hmin (k + 1) (Nat.succ_lt_succ hk))
        (by simpa [Function.iterate_succ_apply] using hesc)
      rw [hrec]
      have harith : i + 1 + j = i + (j + 1) := by omega
      rw [harith, Function.iterate_succ_apply]

lemma escapeLoop_some_inv (step : ℚ × ℚ → ℚ × ℚ) :
    ∀ (fuel : ℕ) (z : ℚ × ℚ) (i : ℕ) (p : ℕ × (ℚ × ℚ)),
      escapeLoop step z i fuel = some p →
      ∃ j, j < fuel ∧ p = (i + j, step^[j] z) ∧ 4 < magSq (step^[j] z) ∧
        ∀ k, k < j → magSq (step^[k] z) ≤ 4 := by
  intro fuel
  induction fuel with
  | zero => intro z i p h; exact absurd h (by rw [escapeLoop]; simp)
  | succ n ih =>
    intro z i p h
    rw [escapeLoop] at h
    by_cases hc : 4 < magSq z
    · rw [if_pos hc] at h
      refine ⟨0, Nat.succ_pos n, ?_, by simpa using hc, by omega⟩
      simpa using h.symm
    · rw [if_neg hc] at h
      obtain ⟨j, hj, hp, hesc, hmin⟩ := ih (step z) (i + 1) p h
      refine ⟨j + 1, Nat.succ_lt_succ hj, ?_, ?_, ?_⟩
      · rw [hp, Function.iterate_succ_apply]
        have : i + 1 + j = i + (j + 1) := by omega
        rw [this]
      · simpa [Function.iterate_succ_apply] using hesc
      · intro k hk
        cases k with
        | zero => simpa using not_lt.mp hc
        | succ k =>
          simpa [Function.iterate_succ_apply]
            using hmin k (Nat.lt_of_succ_lt_succ hk)

lemma smooth_escape_spec (step : ℚ × ℚ → ℚ × ℚ) (N i : ℕ) (hiN : i < N)
    (hmin : ∀ k, k < i → magSq (step^[k] (0, 0)) ≤ 4)
    (hesc : 4 < magSq (step^[i] (0, 0))) :
    2 < Real.sqrt (magSq (step^[i] (0, 0))) ∧
    smoothValue N (escapeLoop step (0, 0) 0 N)
      = (i : ℝ) + 1
        - Real.logb 2 (Real.logb 2 (Real.sqrt (magSq (step^[i] (0, 0))))) := by
  constructor
  · have h4 : (4 : ℝ) < ((magSq (step^[i] (0, 0)) : ℚ) : ℝ) := by exact_mod_cast hesc
    have hs := Real.sqrt_lt_sqrt (by norm_num) h4
    rwa [show Real.sqrt 4 = 2 by
      rw [show (4 : ℝ) = 2 ^ 2 by norm_num, Real.sqrt_sq (by norm_num)]] at hs
  · rw [escapeLoop_eq_some step N (0, 0) 0 i hiN hmin hesc]
    simp [smoothValue]

lemma smooth_noescape_spec (step : ℚ × ℚ → ℚ × ℚ) (N : ℕ)
    (h : ∀ k, k < N → magSq (step^[k] (0, 0)) ≤ 4) :
    smoothValue N (escapeLoop step (0, 0) 0 N) = N := by
  rw [escapeLoop_eq_none step N (0, 0) 0 h]; rfl

/-- C2: for the Mandelbrot and Burning Ship kernels with budget N ≥ 1, if the
iterate magnitude first exceeds the escape radius 2 at loop index i (i.e. the
squared magnitude first exceeds 4), the pixel value is
`i + 1 - log2(log2(m))` where the escape magnitude m satisfies `2 < m` — so
the guard for `m ≤ 1` never fires and the clamp is the identity; and if the
magnitude never exceeds 2 within the N checked iterates, the value is exactly
N. -/
theorem c2_smooth_coloring (c : ℚ × ℚ) (N : ℕ) (_hN : 1 ≤ N) :
    (∀ i, i < N → (∀ k, k < i → magSq ((mandelStep c)^[k] (0, 0)) ≤ 4) →
      4 < magSq ((mandelStep c)^[i] (0, 0)) →
      2 < Real.sqrt (magSq ((mandelStep c)^[i] (0, 0))) ∧
      mandelbrotValue c N
        = (i : ℝ) + 1
          - Real.logb 2 (Real.logb 2 (Real.sqrt (magSq ((mandelStep c)^[i] (0, 0)))))) ∧
    ((∀ k, k < N → magSq ((mandelStep c)^[k] (0, 0)) ≤ 4) →
      mandelbrotValue c N = N) ∧
    (∀ i, i < N → (∀ k, k < i → magSq ((shipStep c)^[k] (0, 0)) ≤ 4) →
      4 < magSq ((shipStep c)^[i] (0, 0)) →
      2 < Real.sqrt (magSq ((shipStep c)^[i] (0, 0))) ∧
      burningShipValue c N
        = (i : ℝ) + 1
          - Real.logb 2 (Real.logb 2 (Real.sqrt (magSq ((shipStep c)^[i] (0, 0)))))) ∧
    ((∀ k, k < N → magSq ((shipStep c)^[k] (0, 0)) ≤ 4) →
      burningShipValue c N = N) :=
  ⟨fun i hi hmin hesc => smooth_escape_spec (mandelStep c) N i hi hmin hesc,
   fun h => smooth_noescape_spec (mandelStep c) N h,
   fun i hi hmin hesc => smooth_escape_spec (shipStep c) N i hi hmin hesc,
   fun h => smooth_noescape_spec (shipStep c) N h⟩

/-- C2 witness: for c = (3,0) with budget 5, both kernels escape at loop
index 1 with magnitude 3, and the theorem evaluates there. -/
theorem c2_smooth_coloring_witness :
    (2 < Real.sqrt (magSq ((mandelStep (3, 0))^[1] (0, 0))) ∧
      mandelbrotValue (3, 0) 5
        = (1 : ℝ) + 1
          - Real.logb 2 (Real.logb 2 (Real.sqrt (magSq ((mandelStep (3, 0))^[1] (0, 0)))))) ∧
    (2 < Real.sqrt (magSq ((shipStep (3, 0))^[1] (0, 0))) ∧
      burningShipValue (3, 0) 5
        = (1 : ℝ) + 1
          - Real.logb 2 (Real.logb 2 (Real.sqrt (magSq ((shipStep (3, 0))^[1] (0, 0)))))) :=
  ⟨by
    have h := (c2_smooth_coloring (3, 0) 5 (by norm_num)).1 1 (by norm_num)
      (by intro k hk
          have hk0 : k = 0 := by omega
          subst hk0
          simp [magSq])
      (by simp [mandelStep, magSq]; norm_num)
    exact_mod_cast h,
   by
    have h := (c2_smooth_coloring (3, 0) 5 (by norm_num)).2.2.1 1 (by norm_num)
      (by intro k hk
          have hk0 : k = 0 := by omega
          subst hk0
          simp [magSq])
      (by simp [shipStep, magSq]; norm_num)
    exact_mod_cast h⟩

/-- Claim-side effective-iteration formula for C4, transcribed from the
specification text: `min(base * (1 + log10(max(1, refW / curW))), 2000)`
with `zoom_level = refW / curW`.  It is compared against the code's
`adaptiveIterations` (which hardcodes the reference width 4.0 and truncates
to an integer). -/
noncomputable def specEffectiveIter (base : ℕ) (refW curW : ℝ) : ℝ :=
  min ((base : ℝ) * (1 + Real.logb 10 (max 1 (refW / curW)))) 2000

lemma adaptiveIterations_eq_floor_min (base : ℕ) (zl : ℝ) :
    adaptiveIterations base zl
      = Int.toNat ⌊min ((base : ℝ) * (1 + Real.logb 10 (max 1 zl))) 2000⌋ := by
  unfold adaptiveIterations
  rw [show ⌊min ((base : ℝ) * (1 + Real.logb 10 (max 1 zl))) 2000⌋
      = min ⌊(base : ℝ) * (1 + Real.logb 10 (max 1 zl))⌋ ⌊(2000 : ℝ)⌋ from
    Int.floor_mono.map_min]
  rw [show ⌊(2000 : ℝ)⌋ = 2000 by norm_num]
  omega

/-- C4 (counterexample): for the Mandelbrot set at current bounds
(0, 2/5, 0, 1), `compute` resolves the budget through
`adaptive_iterations(4.0 / (xmax - xmin))`, which yields 512; but the
claimed formula with `zoom_level = reference_width / current_width`, where
the reference width is the default-bounds width 3.5 (not the hardcoded 4.0),
yields `min(256 * (1 + log10(8.75)), 2000) < 512`.  The claim is false
as stated. -/
theorem c4_counterexample :
    mandelbrotCompute 256 true 256 1 1 ⟨0, 2/5, 0, 1⟩
      = some (mandelbrotField ⟨0, 2/5, 0, 1⟩ 1 1
          (adaptiveIterations 256 ((4 : ℝ) / (((2/5 : ℚ) - 0 : ℚ) : ℝ)))) ∧
    adaptiveIterations 256 ((4 : ℝ) / (((2/5 : ℚ) - 0 : ℚ) : ℝ)) = 512 ∧
    ¬ ((512 : ℝ)
        = specEffectiveIter 256 ((mandelbrotDefaultBounds.width : ℚ) : ℝ)
            (((Bounds.mk 0 (2/5) 0 1).width : ℚ) : ℝ)) := by
  refine ⟨?_, ?_, ?_⟩
  · rw [mandelbrotCompute, if_neg (by norm_num)]
    rfl
  · have hq : (((2/5 : ℚ) - 0 : ℚ) : ℝ) = (2/5 : ℝ) := by push_cast; norm_num
    rw [hq, show (4 : ℝ) / (2/5) = 10 by norm_num]
    unfold adaptiveIterations
    rw [show max (1 : ℝ) 10 = 10 by norm_num,
      Real.logb_self_eq_one (by norm_num)]
    norm_num
    decide
  · intro h
    have hwidths : ((mandelbrotDefaultBounds.width : ℚ) : ℝ) = 7/2 := by
      norm_num [mandelbrotDefaultBounds, Bounds.width]
    have hcur : (((Bounds.mk 0 (2/5) 0 1).width : ℚ) : ℝ) = 2/5 := by
      norm_num [Bounds.width]
    rw [specEffectiveIter, hwidths, hcur,
      show (7 : ℝ)/2 / (2/5) = 35/4 by norm_num,
      show max (1 : ℝ) (35/4) = 35/4 by norm_num] at h
    have hL : Real.logb 10 ((35 : ℝ)/4) < 1 := by
      have h1 : Real.logb 10 ((35 : ℝ)/4) < Real.logb 10 10 :=
        Real.logb_lt_logb (by norm_num) (by norm_num) (by norm_num)
      rwa [Real.logb_self_eq_one (by norm_num)] at h1
    have hlt : (256 : ℝ) * (1 + Real.logb 10 ((35 : ℝ)/4)) < 512 := by nlinarith
    rw [min_eq_left (by linarith)] at h
    linarith

/-- C4 (amended): with adaptive iterations enabled and nonzero current
width, the Mandelbrot `compute` uses the effective budget given by the
claimed formula with two corrections forced by the code: the reference
width is the hardcoded constant 4.0 (not the width 3.5 of the family's
default bounds), and the real-valued formula is truncated to an integer
before use. -/
theorem c4_adaptive_budget (base paramIter w h : ℕ) (b : Bounds)
    (hb : b.width ≠ 0) :
    mandelbrotCompute base true paramIter w h b
      = some (mandelbrotField b w h
          (Int.toNat ⌊specEffectiveIter base 4 ((b.width : ℚ) : ℝ)⌋)) := by
  have hb0 : b.xmax - b.xmin ≠ 0 := hb
  rw [mandelbrotCompute, if_neg hb0]
  have hbudget : adaptiveIterations base ((4 : ℝ) / ((b.xmax - b.xmin : ℚ) : ℝ))
      = Int.toNat ⌊specEffectiveIter base 4 ((b.width : ℚ) : ℝ)⌋ := by
    rw [adaptiveIterations_eq_floor_min]
    rfl
  rw [show (if true then
        adaptiveIterations base ((4 : ℝ) / ((b.xmax - b.xmin : ℚ) : ℝ))
      else paramIter)
      = adaptiveIterations base ((4 : ℝ) / ((b.xmax - b.xmin : ℚ) : ℝ)) from rfl,
    hbudget]

/-- C4 witness: the amended budget theorem instantiated at concrete bounds
(0, 2/5, 0, 1) with base budget 256 on a 1×1 canvas. -/
theorem c4_adaptive_budget_witness :
    mandelbrotCompute 256 true 256 1 1 ⟨0, 2/5, 0, 1⟩
      = some (mandelbrotField ⟨0, 2/5, 0, 1⟩ 1 1
          (Int.toNat ⌊specEffectiveIter 256 4
              (((Bounds.mk 0 (2/5) 0 1).width : ℚ) : ℝ)⌋)) :=
  c4_adaptive_budget 256 256 1 1 ⟨0, 2/5, 0, 1⟩ (by norm_num [Bounds.width])

/-- C5 (counterexample): the degenerate bounds (1, 0, 0, 1) (xmin > xmax)
are a configuration error per the claim, yet `MandelbrotSet.compute`
performs no validation and happily computes a field; nothing is rejected
before computation starts. -/
theorem c5_counterexample :
    (Bounds.mk 1 0 0 1).xmax < (Bounds.mk 1 0 0 1).xmin ∧
    mandelbrotCompute 256 true 256 1 1 ⟨1, 0, 0, 1⟩
      = some (mandelbrotField ⟨1, 0, 0, 1⟩ 1 1
          (adaptiveIterations 256 ((4 : ℝ) / (((0 : ℚ) - 1 : ℚ) : ℝ)))) := by
  constructor
  · norm_num
  · rw [mandelbrotCompute, if_neg (by norm_num)]
    rfl

/-- C5 (amended): `MandelbrotSet.compute` performs no configuration-error
rejection at all.  The only erroring input is a zero-width bounds rectangle,
which dies with an accidental `ZeroDivisionError` while computing
`zoom_level` (modelled as `none`); every other degenerate input — inverted
bounds, non-positive resolution, a zero iteration budget — flows into the
kernel, which silently returns a field. -/
theorem c5_no_validation (instIter : ℕ) (adaptive : Bool) (paramIter w h : ℕ)
    (b : Bounds) :
    (mandelbrotCompute instIter adaptive paramIter w h b = none ↔
      b.xmax - b.xmin = 0) ∧
    (b.xmax - b.xmin ≠ 0 →
      mandelbrotCompute instIter false 0 w h b
        = some (mandelbrotField b w h 0)) := by
  constructor
  · unfold mandelbrotCompute
    split_ifs with hcond <;> simp [hcond]
  · intro hne
    unfold mandelbrotCompute
    rw [if_neg hne]
    rfl

/-- C5 witness: the characterization applied to inverted bounds (1,0,0,1)
with a zero iteration budget on a 2×2 canvas. -/
theorem c5_no_validation_witness :
    (mandelbrotCompute 256 false 0 2 2 ⟨1, 0, 0, 1⟩ = none ↔
      (Bounds.mk 1 0 0 1).xmax - (Bounds.mk 1 0 0 1).xmin = 0) ∧
    mandelbrotCompute 256 false 0 2 2 ⟨1, 0, 0, 1⟩
      = some (mandelbrotField ⟨1, 0, 0, 1⟩ 2 2 0) :=
  ⟨(c5_no_validation 256 false 0 2 2 ⟨1, 0, 0, 1⟩).1,
   (c5_no_validation 256 false 0 2 2 ⟨1, 0, 0, 1⟩).2 (by norm_num)⟩

/-- Python `int()` truncation toward zero on a rational (used for the
`px = int(fx)` pixel index computations in the IFS kernels). -/
def truncQ (q : ℚ) : ℤ := if 0 ≤ q then ⌊q⌋ else -⌊-q⌋

/-- Fractional pixel coordinate of the IFS kernels (base.py / ifs.py):
`fx = (x - xmin) / (xmax - xmin) * (width - 1)`. -/
def pixelFrac (lo hi : ℚ) (n : ℕ) (v : ℚ) : ℚ := (v - lo) / (hi - lo) * ((n : ℚ) - 1)

/-- Integer pixel column `px = int(fx)` of a chaos-game point. -/
def pxOf (w : ℕ) (b : Bounds) (p : ℚ × ℚ) : ℤ := truncQ (pixelFrac b.xmin b.xmax w p.1)

/-- Integer pixel row `py = int(fy)` of a chaos-game point. -/
def pyOf (h : ℕ) (b : Bounds) (p : ℚ × ℚ) : ℤ := truncQ (pixelFrac b.ymin b.ymax h p.2)

/-- Fractional part `dx = fx - px` used by the bilinear splat. -/
def fracX (w : ℕ) (b : Bounds) (p : ℚ × ℚ) : ℚ :=
  pixelFrac b.xmin b.xmax w p.1 - (pxOf w b p : ℚ)

/-- Fractional part `dy = fy - py` used by the bilinear splat. -/
def fracY (h : ℕ) (b : Bounds) (p : ℚ × ℚ) : ℚ :=
  pixelFrac b.ymin b.ymax h p.2 - (pyOf h b p : ℚ)

/-- Add weight `wt` to the density cell at (row r, column c); cells are
addressed with integer indices as in `result[height - 1 - py, px] += w`. -/
def addCell (g : ℕ × ℕ → ℚ) (r c : ℤ) (wt : ℚ) : ℕ × ℕ → ℚ :=
  fun rc => if (rc.1 : ℤ) = r ∧ (rc.2 : ℤ) = c then g rc + wt else g rc

/-- One accumulation step of `IFSFractal.compute` (base.py, identically in
`compute_sierpinski` of ifs.py): bilinear splat over the 4 enclosing cells
when `0 <= px < width-1 and 0 <= py < height-1`, single-cell deposit when
`0 <= px < width and 0 <= py < height`, otherwise no-op.  Rows are flipped
(`height - 1 - py`). -/
def ifsDeposit (w h : ℕ) (b : Bounds) (p : ℚ × ℚ) (g : ℕ × ℕ → ℚ) : ℕ × ℕ → ℚ :=
  if 0 ≤ pxOf w b p ∧ pxOf w b p < (w : ℤ) - 1 ∧
      0 ≤ pyOf h b p ∧ pyOf h b p < (h : ℤ) - 1 then
    addCell (addCell (addCell (addCell g
        ((h : ℤ) - 1 - pyOf h b p) (pxOf w b p)
          ((1 - fracX w b p) * (1 - fracY h b p)))
        ((h : ℤ) - 1 - pyOf h b p) (pxOf w b p + 1)
          (fracX w b p * (1 - fracY h b p)))
        ((h : ℤ) - 1 - (pyOf h b p + 1)) (pxOf w b p)
          ((1 - fracX w b p) * fracY h b p))
        ((h : ℤ) - 1 - (pyOf h b p + 1)) (pxOf w b p + 1)
          (fracX w b p * fracY h b p)
  else if 0 ≤ pxOf w b p ∧ pxOf w b p < (w : ℤ) ∧
      0 ≤ pyOf h b p ∧ pyOf h b p < (h : ℤ) then
    addCell g ((h : ℤ) - 1 - pyOf h b p) (pxOf w b p) 1
  else g

/-- A chaos-game point deposits weight into the canvas iff its integer pixel
indices land inside `[0, width) × [0, height)` (the union of the bilinear
branch and the edge branch of the deposit). -/
def inCanvas (w h : ℕ) (b : Bounds) (p : ℚ × ℚ) : Prop :=
  0 ≤ pxOf w b p ∧ pxOf w b p < (w : ℤ) ∧ 0 ≤ pyOf h b p ∧ pyOf h b p < (h : ℤ)

instance (w h : ℕ) (b : Bounds) (p : ℚ × ℚ) : Decidable (inCanvas w h b p) := by
  unfold inCanvas
  infer_instance

/-- The chaos-game point sequence: the running point after n transform
applications; step n applies the transform chosen by the selection sequence
σ (modelling the outcomes of the weighted `np.random` draw). -/
def ifsPoint (start : ℚ × ℚ) (ts : List ((ℚ × ℚ) → ℚ × ℚ)) (σ : ℕ → ℕ) :
    ℕ → ℚ × ℚ
  | 0 => start
  | n + 1 => (ts.getD (σ n) id) (ifsPoint start ts σ n)

/-- The main loop of `IFSFractal.compute` (base.py): at iteration i the
point is updated, and if `i < skip` (burn-in) nothing is accumulated,
otherwise the updated point is deposited into the density field.  The state
after n iterations is the pair (point, field). -/
def ifsIterate (start : ℚ × ℚ) (w h : ℕ) (b : Bounds) (skip : ℕ)
    (ts : List ((ℚ × ℚ) → ℚ × ℚ)) (σ : ℕ → ℕ) : ℕ → (ℚ × ℚ) × (ℕ × ℕ → ℚ)
  | 0 => (start, fun _ => 0)
  | n + 1 =>
    let s := ifsIterate start w h b skip ts σ n
    let p := (ts.getD (σ n) id) s.1
    (p, if n < skip then s.2 else ifsDeposit w h b p s.2)

/-- Burn-in count `skip = min(100, iterations // 100)` (base.py / ifs.py). -/
def ifsSkip (M : ℕ) : ℕ := min 100 (M / 100)

/-- The raw (pre-log, pre-normalize) accumulated density field of
`IFSFractal.compute` with budget M: the loop runs `iterations + skip`
times, of which the first `skip` are burn-in. -/
def ifsGrid (start : ℚ × ℚ) (w h : ℕ) (b : Bounds) (M : ℕ)
    (ts : List ((ℚ × ℚ) → ℚ × ℚ)) (σ : ℕ → ℕ) : ℕ × ℕ → ℚ :=
  (ifsIterate start w h b (ifsSkip M) ts σ (M + ifsSkip M)).2

/-- Total accumulated weight over the whole field. -/
def totalMass (g : ℕ × ℕ → ℚ) (w h : ℕ) : ℚ :=
  ∑ r ∈ Finset.range h, ∑ c ∈ Finset.range w, g (r, c)

lemma ifsIterate_fst (start : ℚ × ℚ) (w h : ℕ) (b : Bounds) (skip : ℕ)
    (ts : List ((ℚ × ℚ) → ℚ × ℚ)) (σ : ℕ → ℕ) :
    ∀ n, (ifsIterate start w h b skip ts σ n).1 = ifsPoint start ts σ n := by
  intro n
  induction n with
  | zero => rfl
  | succ k ih => rw [ifsIterate, ifsPoint, ih]

lemma totalMass_addCell (g : ℕ × ℕ → ℚ) (r c : ℤ) (wt : ℚ) (w h : ℕ) :
    totalMass (addCell g r c wt) w h
      = totalMass g w h
        + if 0 ≤ r ∧ r < (h : ℤ) ∧ 0 ≤ c ∧ c < (w : ℤ) then wt else 0 := by
  unfold totalMass addCell
  have hsplit : ∀ rr cc : ℕ,
      (if ((rr : ℤ) = r ∧ (cc : ℤ) = c) then g (rr, cc) + wt else g (rr, cc))
        = g (rr, cc) + (if ((rr : ℤ) = r ∧ (cc : ℤ) = c) then wt else 0) := by
    intro rr cc; split_ifs <;> ring
  simp_rw [hsplit, Finset.sum_add_distrib]
  congr 1
  by_cases hin : 0 ≤ r ∧ r < (h : ℤ) ∧ 0 ≤ c ∧ c < (w : ℤ)
  · rw [if_pos hin]
    obtain ⟨hr0, hrh, hc0, hcw⟩ := hin
    rw [Finset.sum_eq_single r.toNat]
    · rw [Finset.sum_eq_single c.toNat]
      · rw [if_pos ⟨by omega, by omega⟩]
      · intro cc hcc hne
        rw [if_neg]
        rintro ⟨-, h2⟩
        exact hne (by omega)
      · intro habs
        exact absurd (Finset.mem_range.mpr (by omega : c.toNat < w)) habs
    · intro rr hrr hne
      apply Finset.sum_eq_zero
      intro cc hcc
      rw [if_neg]
      rintro ⟨h1, -⟩
      exact hne (by omega)
    · intro habs
      exact absurd (Finset.mem_range.mpr (by omega : r.toNat < h)) habs
  · rw [if_neg hin]
    apply Finset.sum_eq_zero
    intro rr hrr
    apply Finset.sum_eq_zero
    intro cc hcc
    rw [if_neg]
    rintro ⟨h1, h2⟩
    have hrr2 := Finset.mem_range.mp hrr
    have hcc2 := Finset.mem_range.mp hcc
    exact hin ⟨by omega, by omega, by omega, by omega⟩

lemma totalMass_ifsDeposit (w h : ℕ) (b : Bounds) (p : ℚ × ℚ)
    (g : ℕ × ℕ → ℚ) :
    totalMass (ifsDeposit w h b p g) w h
      = totalMass g w h + if inCanvas w h b p then 1 else 0 := by
  by_cases h1 : 0 ≤ pxOf w b p ∧ pxOf w b p < (w : ℤ) - 1 ∧
      0 ≤ pyOf h b p ∧ pyOf h b p < (h : ℤ) - 1
  · obtain ⟨hpx0, hpxw, hpy0, hpyh⟩ := h1
    have cA : 0 ≤ (h : ℤ) - 1 - pyOf h b p ∧ (h : ℤ) - 1 - pyOf h b p < (h : ℤ) ∧
        0 ≤ pxOf w b p ∧ pxOf w b p < (w : ℤ) := ⟨by omega, by omega, by omega, by omega⟩
    have cB : 0 ≤ (h : ℤ) - 1 - pyOf h b p ∧ (h : ℤ) - 1 - pyOf h b p < (h : ℤ) ∧
        0 ≤ pxOf w b p + 1 ∧ pxOf w b p + 1 < (w : ℤ) := ⟨by omega, by omega, by omega, by omega⟩
    have cC : 0 ≤ (h : ℤ) - 1 - (pyOf h b p + 1) ∧ (h : ℤ) - 1 - (pyOf h b p + 1) < (h : ℤ) ∧
        0 ≤ pxOf w b p ∧ pxOf w b p < (w : ℤ) := ⟨by omega, by omega, by omega, by omega⟩
    have cD : 0 ≤ (h : ℤ) - 1 - (pyOf h b p + 1) ∧ (h : ℤ) - 1 - (pyOf h b p + 1) < (h : ℤ) ∧
        0 ≤ pxOf w b p + 1 ∧ pxOf w b p + 1 < (w : ℤ) := ⟨by omega, by omega, by omega, by omega⟩
    have hcv : inCanvas w h b p := ⟨by omega, by omega, by omega, by omega⟩
    unfold ifsDeposit
    rw [if_pos ⟨hpx0, hpxw, hpy0, hpyh⟩,
      totalMass_addCell, totalMass_addCell, totalMass_addCell, totalMass_addCell,
      if_pos cD, if_pos cC, if_pos cB, if_pos cA, if_pos hcv]
    ring
  · by_cases h2 : 0 ≤ pxOf w b p ∧ pxOf w b p < (w : ℤ) ∧
        0 ≤ pyOf h b p ∧ pyOf h b p < (h : ℤ)
    · obtain ⟨hpx0, hpxw, hpy0, hpyh⟩ := h2
      have cE : 0 ≤ (h : ℤ) - 1 - pyOf h b p ∧ (h : ℤ) - 1 - pyOf h b p < (h : ℤ) ∧
          0 ≤ pxOf w b p ∧ pxOf w b p < (w : ℤ) := ⟨by omega, by omega, by omega, by omega⟩
      have hcv : inCanvas w h b p := ⟨hpx0, hpxw, hpy0, hpyh⟩
      unfold ifsDeposit
      rw [if_neg h1, if_pos ⟨hpx0, hpxw, hpy0, hpyh⟩, totalMass_addCell,
        if_pos cE, if_pos hcv]
    · have hcv : ¬ inCanvas w h b p := h2
      unfold ifsDeposit
      rw [if_neg h1, if_neg h2, if_neg hcv]
      ring

lemma totalMass_ifsIterate (start : ℚ × ℚ) (w h : ℕ) (b : Bounds) (skip : ℕ)
    (ts : List ((ℚ × ℚ) → ℚ × ℚ)) (σ : ℕ → ℕ) :
    ∀ n, totalMass ((ifsIterate start w h b skip ts σ n).2) w h
      = ∑ i ∈ Finset.range n,
          if skip ≤ i ∧ inCanvas w h b (ifsPoint start ts σ (i + 1)) then (1 : ℚ)
          else 0 := by
  intro n
  induction n with
  | zero =>
    simp [ifsIterate, totalMass]
  | succ k ih =>
    rw [Finset.sum_range_succ, ← ih, ifsIterate]
    by_cases hk : k < skip
    · rw [if_pos hk, if_neg (by rintro ⟨hc, -⟩; omega)]
      simp
    · rw [if_neg hk]
      simp only []
      rw [totalMass_ifsDeposit]
      have hpt : (ts.getD (σ k) id) (ifsIterate start w h b skip ts σ k).1
          = ifsPoint start ts σ (k + 1) := by
        rw [ifsIterate_fst, ifsPoint]
      rw [hpt]
      congr 1
      by_cases hcv : inCanvas w h b (ifsPoint start ts σ (k + 1))
      · rw [if_pos hcv, if_pos ⟨by omega, hcv⟩]
      · rw [if_neg hcv, if_neg (by rintro ⟨-, hc⟩; exact hcv hc)]

lemma sum_indicator_ge (s : ℕ) :
    ∀ n : ℕ, ∑ i ∈ Finset.range (n + s), (if s ≤ i then (1 : ℚ) else 0) = n := by
  intro n
  induction n with
  | zero =>
    apply Finset.sum_eq_zero
    intro i hi
    rw [if_neg]
    have := Finset.mem_range.mp hi
    omega
  | succ k ih =>
    rw [show k + 1 + s = (k + s) + 1 by omega, Finset.sum_range_succ, ih,
      if_pos (by omega)]
    push_cast
    ring

/-- The three affine maps of `SierpinskiTriangle.get_transforms` (ifs.py):
`(0.5x, 0.5y)`, `(0.5x + 0.5, 0.5y)`, `(0.5x + 0.25, 0.5y + 0.433)`. -/
def sierpinskiTransforms : List ((ℚ × ℚ) → ℚ × ℚ) :=
  [fun p => (1/2 * p.1, 1/2 * p.2),
   fun p => (1/2 * p.1 + 1/2, 1/2 * p.2),
   fun p => (1/2 * p.1 + 1/4, 1/2 * p.2 + 433/1000)]

/-- `SierpinskiTriangle.get_default_bounds` (ifs.py): (-0.1, 1.1, -0.1, 1.0). -/
def sierpinskiDefaultBounds : Bounds := ⟨-1/10, 11/10, -1/10, 1⟩

/-- C3 (counterexample): run `IFSFractal.compute`-style accumulation with
the Sierpinski transforms, budget M = 100 (so skip = 1), a 2×2 canvas, the
default bounds, start point (0,0), and the selection sequence that always
picks transform 0.  The point stays at the origin, every accumulated point
is in-canvas, and the total accumulated weight is 100 = M — not
M − skip = 99 as the claim requires: the loop runs `iterations + skip`
times, so the burn-in does not reduce the accumulated mass. -/
theorem c3_counterexample :
    ifsSkip 100 = 1 ∧
    totalMass (ifsGrid (0, 0) 2 2 sierpinskiDefaultBounds 100
        sierpinskiTransforms (fun _ => 0)) 2 2 = 100 ∧
    (100 : ℚ) ≠ 100 - (ifsSkip 100 : ℚ) := by
  have hpt : ∀ n, ifsPoint (0, 0) sierpinskiTransforms (fun _ => 0) n = (0, 0) := by
    intro n
    induction n with
    | zero => rfl
    | succ k ih =>
      rw [ifsPoint, ih]
      simp [sierpinskiTransforms]
  have hpx : pxOf 2 sierpinskiDefaultBounds (0, 0) = 0 := by
    unfold pxOf truncQ pixelFrac
    norm_num [sierpinskiDefaultBounds]
  have hpy : pyOf 2 sierpinskiDefaultBounds (0, 0) = 0 := by
    unfold pyOf truncQ pixelFrac
    norm_num [sierpinskiDefaultBounds]
  have hcv : inCanvas 2 2 sierpinskiDefaultBounds (0, 0) := by
    unfold inCanvas
    rw [hpx, hpy]
    norm_num
  refine ⟨rfl, ?_, by norm_num [ifsSkip]⟩
  rw [ifsGrid, totalMass_ifsIterate]
  have hcongr : ∀ i ∈ Finset.range (100 + ifsSkip 100),
      (if ifsSkip 100 ≤ i ∧
          inCanvas 2 2 sierpinskiDefaultBounds
            (ifsPoint (0, 0) sierpinskiTransforms (fun _ => 0) (i + 1))
        then (1 : ℚ) else 0)
      = if ifsSkip 100 ≤ i then 1 else 0 := by
    intro i _
    by_cases hs : ifsSkip 100 ≤ i
    · rw [if_pos ⟨hs, by rw [hpt]; exact hcv⟩, if_pos hs]
    · rw [if_neg (by rintro ⟨hc, -⟩; exact hs hc), if_neg hs]
  rw [Finset.sum_congr rfl hcongr, sum_indicator_ge]
  norm_num

/-- C3 (amended): in `IFSFractal.compute` the burn-in count is
`skip = min(100, M // 100)` and burn-in steps accumulate nothing, but the
loop runs `M + skip` iterations, so when every accumulated point lands on
the canvas the total accumulated pre-log, pre-normalize weight equals
exactly M — not M − skip. -/
theorem c3_mass_conservation (start : ℚ × ℚ) (w h : ℕ) (b : Bounds) (M : ℕ)
    (ts : List ((ℚ × ℚ) → ℚ × ℚ)) (σ : ℕ → ℕ)
    (hall : ∀ i, ifsSkip M ≤ i → i < M + ifsSkip M →
      inCanvas w h b (ifsPoint start ts σ (i + 1))) :
    ifsSkip M = min 100 (M / 100) ∧
    totalMass ((ifsIterate start w h b (ifsSkip M) ts σ (ifsSkip M)).2) w h = 0 ∧
    totalMass (ifsGrid start w h b M ts σ) w h = M := by
  refine ⟨rfl, ?_, ?_⟩
  · rw [totalMass_ifsIterate]
    apply Finset.sum_eq_zero
    intro i hi
    rw [if_neg]
    rintro ⟨hc, -⟩
    have := Finset.mem_range.mp hi
    omega
  · rw [ifsGrid, totalMass_ifsIterate]
    have hcongr : ∀ i ∈ Finset.range (M + ifsSkip M),
        (if ifsSkip M ≤ i ∧ inCanvas w h b (ifsPoint start ts σ (i + 1))
          then (1 : ℚ) else 0)
        = if ifsSkip M ≤ i then 1 else 0 := by
      intro i hi
      by_cases hs : ifsSkip M ≤ i
      · rw [if_pos ⟨hs, hall i hs (Finset.mem_range.mp hi)⟩, if_pos hs]
      · rw [if_neg (by rintro ⟨hc, -⟩; exact hs hc), if_neg hs]
    rw [Finset.sum_congr rfl hcongr, sum_indicator_ge]

/-- C3 witness: the amended mass-conservation theorem instantiated on the
always-pick-transform-0 run used in the counterexample (M = 1000,
skip = 10, 2×2 canvas, Sierpinski default bounds). -/
theorem c3_mass_conservation_witness :
    ifsSkip 1000 = min 100 (1000 / 100) ∧
    totalMass ((ifsIterate (0, 0) 2 2 sierpinskiDefaultBounds (ifsSkip 1000)
        sierpinskiTransforms (fun _ => 0) (ifsSkip 1000)).2) 2 2 = 0 ∧
    totalMass (ifsGrid (0, 0) 2 2 sierpinskiDefaultBounds 1000
        sierpinskiTransforms (fun _ => 0)) 2 2 = 1000 := by
  have hpt : ∀ n, ifsPoint (0, 0) sierpinskiTransforms (fun _ => 0) n = (0, 0) := by
    intro n
    induction n with
    | zero => rfl
    | succ k ih =>
      rw [ifsPoint, ih]
      simp [sierpinskiTransforms]
  have hpx : pxOf 2 sierpinskiDefaultBounds (0, 0) = 0 := by
    unfold pxOf truncQ pixelFrac
    norm_num [sierpinskiDefaultBounds]
  have hpy : pyOf 2 sierpinskiDefaultBounds (0, 0) = 0 := by
    unfold pyOf truncQ pixelFrac
    norm_num [sierpinskiDefaultBounds]
  have hcv : inCanvas 2 2 sierpinskiDefaultBounds (0, 0) := by
    unfold inCanvas
    rw [hpx, hpy]
    norm_num
  have h := c3_mass_conservation (0, 0) 2 2 sierpinskiDefaultBounds 1000
    sierpinskiTransforms (fun _ => 0)
    (fun i _ _ => by rw [hpt]; exact hcv)
  exact_mod_cast h

/-- The linear-congruential update of
`sierpinski_chaos_game_deterministic` (deterministic_fractals.py):
`state = (state * 1664525 + 1013904223) % 2**32`. -/
def lcgStep (s : ℕ) : ℕ := (s * 1664525 + 1013904223) % 2 ^ 32

/-- Triangle vertices of the deterministic chaos game
(deterministic_fractals.py): (0.5, 0.866), (0, 0), (1, 0). -/
def chaosVertices : List (ℚ × ℚ) := [(1/2, 866/1000), (0, 0), (1, 0)]

/-- Single-cell deposit of the deterministic chaos game: a +1 into
`result[height - 1 - py, px]` when the point is on the canvas. -/
def chaosDeposit (w h : ℕ) (b : Bounds) (p : ℚ × ℚ) (g : ℕ × ℕ → ℚ) :
    ℕ × ℕ → ℚ :=
  if 0 ≤ pxOf w b p ∧ pxOf w b p < (w : ℤ) ∧
      0 ≤ pyOf h b p ∧ pyOf h b p < (h : ℤ) then
    addCell g ((h : ℤ) - 1 - pyOf h b p) (pxOf w b p) 1
  else g

/-- The loop state of `sierpinski_chaos_game_deterministic`
(deterministic_fractals.py) after n iterations: (rng state, point, field).
At each iteration the LCG state is advanced first, the choice is
`state % 3`, the point moves halfway to the chosen vertex, and (after 1000
burn-in iterations) a single-cell deposit accumulates. -/
def chaosIterate (w h : ℕ) (b : Bounds) (seed : ℕ) :
    ℕ → ℕ × (ℚ × ℚ) × (ℕ × ℕ → ℚ)
  | 0 => (seed, (1/2, 1/2), fun _ => 0)
  | n + 1 =>
    let s := chaosIterate w h b seed n
    let st := lcgStep s.1
    let v := chaosVertices.getD (st % 3) (0, 0)
    let p := ((s.2.1.1 + v.1) / 2, (s.2.1.2 + v.2) / 2)
    (st, p, if n < 1000 then s.2.2 else chaosDeposit w h b p s.2.2)

/-- All cell values of a density field as a flat list. -/
def gridCells (g : ℕ × ℕ → ℚ) (w h : ℕ) : List ℚ :=
  ((List.range h).map fun r => (List.range w).map fun c => g (r, c)).flatten

/-- Post-processing of `sierpinski_chaos_game_deterministic`: if the raw
maximum is positive, apply `log1p` and divide by the maximum of the
transformed field; otherwise return the (all-zero) raw counts.  The counts
are nonnegative, so folding `max` from 0 agrees with `np.max`. -/
noncomputable def chaosPost (g : ℕ × ℕ → ℚ) (w h : ℕ) : List (List ℝ) :=
  if 0 < (gridCells g w h).foldl max 0 then
    (List.range h).map fun r => (List.range w).map fun c =>
      Real.log (1 + (g (r, c) : ℝ))
        / (((gridCells g w h).map fun q => Real.log (1 + (q : ℝ))).foldl max 0)
  else
    (List.range h).map fun r => (List.range w).map fun c => ((g (r, c) : ℚ) : ℝ)

/-- The full deterministic chaos-game field
(`sierpinski_chaos_game_deterministic`, 1,000,000 iterations with 1000
burn-in). -/
noncomputable def chaosField (w h : ℕ) (b : Bounds) (seed : ℕ) : List (List ℝ) :=
  chaosPost (chaosIterate w h b seed 1000000).2.2 w h

/-- `DeterministicSierpinskiChaos.compute` (deterministic_fractals.py):
seeds the kernel with `hash(str(bounds)) % 2**31`; the Python string hash is
modelled by an arbitrary function of the bounds. -/
noncomputable def detChaosCompute (hashFn : Bounds → ℕ) (w h : ℕ) (b : Bounds) :
    List (List ℝ) :=
  chaosField w h b (hashFn b % 2 ^ 31)

lemma chaosIterate_state (w h : ℕ) (b : Bounds) (seed : ℕ) :
    ∀ n, (chaosIterate w h b seed n).1 = lcgStep^[n] seed := by
  intro n
  induction n with
  | zero => rfl
  | succ k ih =>
    rw [Function.iterate_succ_apply', ← ih, chaosIterate]

/-- C7: the deterministic-seeded Sierpinski chaos game is a pure function
of (resolution, bounds): two compute calls with identical bounds and
resolution produce identical fields.  The transform selection is driven by
the linear-congruential recurrence: the rng state after n iterations is the
n-fold `lcgStep` iterate of the seed (itself a hash of the bounds mod 2^31),
and iteration n moves the point halfway toward vertex
`lcgStep^[n+1](seed) mod 3`. -/
theorem c7_deterministic_chaos (hashFn : Bounds → ℕ) (w h : ℕ) (b b2 : Bounds)
    (hb : b = b2) :
    detChaosCompute hashFn w h b = detChaosCompute hashFn w h b2 ∧
    (∀ n, (chaosIterate w h b (hashFn b % 2 ^ 31) n).1
      = lcgStep^[n] (hashFn b % 2 ^ 31)) ∧
    (∀ n, (chaosIterate w h b (hashFn b % 2 ^ 31) (n + 1)).2.1
      = (((chaosIterate w h b (hashFn b % 2 ^ 31) n).2.1.1
            + (chaosVertices.getD ((lcgStep^[n + 1] (hashFn b % 2 ^ 31)) % 3)
                (0, 0)).1) / 2,
         ((chaosIterate w h b (hashFn b % 2 ^ 31) n).2.1.2
            + (chaosVertices.getD ((lcgStep^[n + 1] (hashFn b % 2 ^ 31)) % 3)
                (0, 0)).2) / 2)) := by
  subst hb
  refine ⟨rfl, chaosIterate_state w h b (hashFn b % 2 ^ 31), ?_⟩
  intro n
  rw [chaosIterate]
  rw [chaosIterate_state w h b (hashFn b % 2 ^ 31) n]
  rw [show lcgStep^[n + 1] (hashFn b % 2 ^ 31)
      = lcgStep (lcgStep^[n] (hashFn b % 2 ^ 31)) from
    Function.iterate_succ_apply' lcgStep n (hashFn b % 2 ^ 31)]

/-- C7 witness: the determinism theorem applied to the chaos-game default
bounds with a concrete (constant-zero) bounds hash on a 1×1 canvas. -/
theorem c7_deterministic_chaos_witness :
    detChaosCompute (fun _ => 0) 1 1 sierpinskiDefaultBounds
      = detChaosCompute (fun _ => 0) 1 1 sierpinskiDefaultBounds ∧
    (chaosIterate 1 1 sierpinskiDefaultBounds ((fun (_ : Bounds) => 0)
        sierpinskiDefaultBounds % 2 ^ 31) 1).1
      = lcgStep^[1] ((fun (_ : Bounds) => 0) sierpinskiDefaultBounds % 2 ^ 31) :=
  ⟨(c7_deterministic_chaos (fun _ => 0) 1 1 sierpinskiDefaultBounds
      sierpinskiDefaultBounds rfl).1,
   (c7_deterministic_chaos (fun _ => 0) 1 1 sierpinskiDefaultBounds
      sierpinskiDefaultBounds rfl).2.1 1⟩

/-- The fixed palette enumeration: the keys of `ColorMapper.PALETTES`
(colormaps.py) in insertion order. -/
def paletteNames : List String :=
  ["classic", "fire", "ocean", "twilight", "rainbow", "monochrome",
   "coolwarm", "fire_colorcet", "isolum"]

/-- `ColorMapper.cycle_palette` (colormaps.py): moves to the palette at
index `(idx ± 1) % len` in the enumeration.  Python's `(idx - 1) % n` on a
nonnegative `idx < n` equals `(idx + (n - 1)) % n`, which is how the
backward step is written on ℕ here. -/
def cycle_palette (forward : Bool) (p : String) : String :=
  let idx := paletteNames.indexOf p
  let n := paletteNames.length
  if forward then paletteNames.getD ((idx + 1) % n) p
  else paletteNames.getD ((idx + (n - 1)) % n) p

/-- C9: cycling forward wraps at the end of the palette enumeration, and
applying `cycle_palette(forward=True)` N times (N = 9, the palette count)
returns every starting palette to itself. -/
theorem c9_palette_cycle :
    (∀ p ∈ paletteNames, (cycle_palette true)^[paletteNames.length] p = p) ∧
    cycle_palette true "isolum" = "classic" := by
  constructor
  · decide
  · rfl

/-- C9 witness: the cycle theorem applied to the concrete starting palette
"classic". -/
theorem c9_palette_cycle_witness :
    (cycle_palette true)^[paletteNames.length] "classic" = "classic" :=
  c9_palette_cycle.1 "classic" (by decide)

/-- Clamp to [0,1], modelling `np.clip(x, 0, 1)`. -/
noncomputable def clip01 (x : ℝ) : ℝ := max 0 (min x 1)

/-- `ColorMapper._hsv_to_rgb` (colormaps.py): the standard 6-sector HSV to
RGB conversion with `i = floor(h*6) % 6`, `f = h*6 - floor(h*6)`. -/
noncomputable def hsvToRgb (hue sat va : ℝ) : ℝ × ℝ × ℝ :=
  let h6 := hue * 6
  let i : ℤ := ⌊h6⌋ % 6
  let f := h6 - ⌊h6⌋
  let p := va * (1 - sat)
  let q := va * (1 - sat * f)
  let t := va * (1 - sat * (1 - f))
  if i = 0 then (va, t, p)
  else if i = 1 then (q, va, p)
  else if i = 2 then (p, va, t)
  else if i = 3 then (p, q, va)
  else if i = 4 then (t, p, va)
  else (va, p, q)

/-- Per-pixel color of `ColorMapper._get_custom_palette` (colormaps.py) for
each analytic palette; an unmatched name leaves the zero color, as the
Python array stays `np.zeros`.  The final `np.clip(colors, 0, 1)` is
applied channelwise. -/
noncomputable def customPaletteColor (name : String) (v : ℝ) : ℝ × ℝ × ℝ :=
  if name = "classic" then
    (clip01 (Real.sin (v * Real.pi) ^ 2),
     clip01 (Real.sin (v * Real.pi * 2) ^ 2),
     clip01 (Real.cos (v * Real.pi / 2) ^ 2))
  else if name = "fire" then
    (clip01 (v * 3), clip01 (v * 3 - 1), clip01 (v * 3 - 2))
  else if name = "ocean" then
    (clip01 (v ^ 2), clip01 (v ^ ((3 : ℝ) / 2)), clip01 (Real.sqrt v))
  else if name = "twilight" then
    (clip01 ((0.5 : ℝ) + 0.5 * Real.sin (2 * Real.pi * v)),
     clip01 ((0.5 : ℝ) + 0.5 * Real.sin (2 * Real.pi * v - Real.pi / 2)),
     clip01 ((0.5 : ℝ) + 0.5 * Real.sin (2 * Real.pi * v + Real.pi / 2)))
  else if name = "rainbow" then
    (clip01 (hsvToRgb v 1 1).1, clip01 (hsvToRgb v 1 1).2.1,
     clip01 (hsvToRgb v 1 1).2.2)
  else if name = "monochrome" then (clip01 v, clip01 v, clip01 v)
  else (0, 0, 0)

/-- Per-pixel color of `ColorMapper._apply_colorcet` (colormaps.py):
linear interpolation between the two nearest stops of a colorcet map; the
stop list itself is external library data and is a parameter of the model. -/
noncomputable def colorcetColor (stops : List (ℝ × ℝ × ℝ)) (v : ℝ) : ℝ × ℝ × ℝ :=
  let n := stops.length
  let indices := v * ((n : ℝ) - 1)
  let frac := indices - ⌊indices⌋
  let lo : ℤ := min (max ⌊indices⌋ 0) ((n : ℤ) - 1)
  let up : ℤ := min (max ⌈indices⌉ 0) ((n : ℤ) - 1)
  let cl := stops.getD lo.toNat (0, 0, 0)
  let cu := stops.getD up.toNat (0, 0, 0)
  (cl.1 * (1 - frac) + cu.1 * frac,
   cl.2.1 * (1 - frac) + cu.2.1 * frac,
   cl.2.2 * (1 - frac) + cu.2.2 * frac)

/-- Palette type table of `ColorMapper.PALETTES` (colormaps.py): the three
colorcet entries; all others are custom. -/
def isColorcet (name : String) : Bool :=
  name == "coolwarm" || name == "fire_colorcet" || name == "isolum"

/-- Maximum of a scalar field, `values.max()`; seeded from the first cell. -/
noncomputable def fieldMax (v : List (List ℝ)) : ℝ :=
  v.flatten.foldl max (v.flatten.headD 0)

/-- Minimum of a scalar field, `values.min()`; seeded from the first cell. -/
noncomputable def fieldMin (v : List (List ℝ)) : ℝ :=
  v.flatten.foldl min (v.flatten.headD 0)

/-- `ColorMapper.get_colors` (colormaps.py) with the default
`normalize=True`: rescale to [0,1] when max > min, apply the invert flag,
then map through the named palette; an unknown palette name falls back to
"classic". -/
noncomputable def get_colors (cmapData : String → List (ℝ × ℝ × ℝ))
    (palette : String) (invert : Bool) (values : List (List ℝ)) :
    List (List (ℝ × ℝ × ℝ)) :=
  let normed := if fieldMin values < fieldMax values then
      values.map fun row => row.map fun v =>
        (v - fieldMin values) / (fieldMax values - fieldMin values)
    else values
  let inv := if invert then normed.map fun row => row.map fun v => 1 - v
    else normed
  if palette ∈ paletteNames then
    if isColorcet palette then
      inv.map fun row => row.map (colorcetColor (cmapData palette))
    else inv.map fun row => row.map (customPaletteColor palette)
  else inv.map fun row => row.map (customPaletteColor "classic")

/-- State of `FractalRenderer2D` (renderer_2d.py): canvas resolution,
current bounds, the last computed scalar field (`current_data`), the
keyed region cache `_cache` with its hit/miss counters, plus an
instrumentation counter for the number of `fractal.compute` invocations.
Parameters are modelled by a single ℕ (the resolved iteration budget). -/
structure RendererState where
  width : ℕ
  height : ℕ
  bounds : Bounds
  currentData : Option (List (List ℝ))
  cache : List ((Bounds × ℕ) × List (List ℝ))
  cacheHits : ℕ
  cacheMisses : ℕ
  computeCount : ℕ

/-- `FractalRenderer2D.__init__`: `current_data = None`, `_cache = {}`,
zero hit/miss counters. -/
def initialRendererState (w h : ℕ) (b : Bounds) : RendererState :=
  { width := w, height := h, bounds := b, currentData := none, cache := [],
    cacheHits := 0, cacheMisses := 0, computeCount := 0 }

/-- `FractalRenderer2D.render` with `progressive=False` (renderer_2d.py):
optionally replace the bounds, invoke `fractal.compute` once, store the
field in `current_data`, and color-map it.  Note the keyed `_cache` is
never written and the hit/miss counters are never incremented. -/
noncomputable def renderStep (computeF : ℕ → ℕ → Bounds → ℕ → List (List ℝ))
    (cmapData : String → List (ℝ × ℝ × ℝ)) (palette : String) (invert : Bool)
    (s : RendererState) (bOpt : Option Bounds) (params : ℕ) :
    RendererState × List (List (ℝ × ℝ × ℝ)) :=
  let b := bOpt.getD s.bounds
  let data := computeF s.width s.height b params
  ({ s with
      bounds := b
      currentData := some data
      computeCount := s.computeCount + 1 },
   get_colors cmapData palette invert data)

/-- `MainWindow._update_display` (main_window.py): after a palette change
the image is re-derived as `color_mapper.get_colors(renderer.current_data)`
when a field is cached — this function has no access to `fractal.compute`
at all, so no recomputation can occur. -/
noncomputable def update_display (cmapData : String → List (ℝ × ℝ × ℝ))
    (palette : String) (invert : Bool) (s : RendererState) :
    Option (List (List (ℝ × ℝ × ℝ))) :=
  s.currentData.map (get_colors cmapData palette invert)

/-- C8 (counterexample): after a successful render call starting from the
freshly initialized renderer, the keyed scalar-field cache holds no entry
at all — in particular none keyed by the rendered (bounds, params) — so
the claimed keyed caching does not happen. -/
theorem c8_counterexample :
    ¬ ∃ e ∈ (renderStep (fun w h b n => mandelbrotField b w h n) (fun _ => [])
        "classic" false (initialRendererState 1 1 ⟨0, 1, 0, 1⟩) none 5).1.cache,
      e.1 = (⟨0, 1, 0, 1⟩, 5) := by
  rintro ⟨e, he, -⟩
  simp [renderStep, initialRendererState] at he

/-- C8 (amended): a render call leaves the keyed `_cache` untouched (it is
never populated) but does hold the last computed ScalarField, unkeyed, in
`current_data`; a subsequent palette-only change derives the new ColorImage
from that cached field through the color mapper alone, with the compute
invocation count unchanged. -/
theorem c8_cache_discipline (computeF : ℕ → ℕ → Bounds → ℕ → List (List ℝ))
    (cmapData : String → List (ℝ × ℝ × ℝ)) (pal palNew : String) (inv : Bool)
    (s : RendererState) (bOpt : Option Bounds) (params : ℕ) :
    (renderStep computeF cmapData pal inv s bOpt params).1.cache = s.cache ∧
    (renderStep computeF cmapData pal inv s bOpt params).1.currentData
      = some (computeF s.width s.height (bOpt.getD s.bounds) params) ∧
    (renderStep computeF cmapData pal inv s bOpt params).1.computeCount
      = s.computeCount + 1 ∧
    update_display cmapData palNew inv
        (renderStep computeF cmapData pal inv s bOpt params).1
      = some (get_colors cmapData palNew inv
          (computeF s.width s.height (bOpt.getD s.bounds) params)) :=
  ⟨rfl, rfl, rfl, rfl⟩

/-- The bit-test loop of `sierpinski_escape_time`
(deterministic_fractals.py): starting from the scaled integer coordinates,
return the first index i at which the bitwise AND of the shifted
coordinates is nonzero, right-shifting one bit per iteration, or the
default (the budget) when the fuel runs out. -/
def sierLoop : ℕ → ℕ → ℕ → ℕ → ℕ → ℕ
  | 0, _, _, _, d => d
  | fuel + 1, tx, ty, i, d =>
    if tx &&& ty ≠ 0 then i else sierLoop fuel (tx >>> 1) (ty >>> 1) (i + 1) d

/-- Per-pixel value of `sierpinski_escape_time` (deterministic_fractals.py):
0 outside the unit square; otherwise `iterations / max_iter` where
`iterations` comes from the bit test on `int(x * 2**N)`, `int(y * 2**N)`. -/
noncomputable def sierpinskiPixelValue (x y : ℚ) (N : ℕ) : ℝ :=
  if x < 0 ∨ y < 0 ∨ 1 < x ∨ 1 < y then 0
  else (sierLoop N (Int.toNat (truncQ (x * 2 ^ N)))
      (Int.toNat (truncQ (y * 2 ^ N))) 0 N : ℝ) / N

/-- The full field of `sierpinski_escape_time`. -/
noncomputable def sierpinskiEscField (b : Bounds) (w h N : ℕ) : List (List ℝ) :=
  (List.range h).map fun py => (List.range w).map fun px =>
    sierpinskiPixelValue (pixelCoord b.xmin b.xmax w px)
      (pixelCoord b.ymin b.ymax h py) N

/-- Log-scaling of one cell in `IFSFractal.compute` (base.py):
`np.where(result > 0, np.log1p(result), 0)`. -/
noncomputable def logCell (q : ℚ) : ℝ :=
  if 0 < q then Real.log (1 + (q : ℝ)) else 0

/-- The maximum of the log-scaled field, `result.max()`; the log-scaled
cells are nonnegative, so folding `max` from 0 agrees with `np.max`. -/
noncomputable def ifsPostMax (g : ℕ × ℕ → ℚ) (w h : ℕ) : ℝ :=
  ((gridCells g w h).map logCell).foldl max 0

/-- Post-processing of `IFSFractal.compute` (base.py): log-scale, then
divide by the maximum if it is positive. -/
noncomputable def ifsPost (g : ℕ × ℕ → ℚ) (w h : ℕ) : List (List ℝ) :=
  if 0 < ifsPostMax g w h then
    (List.range h).map fun r => (List.range w).map fun c =>
      logCell (g (r, c)) / ifsPostMax g w h
  else
    (List.range h).map fun r => (List.range w).map fun c => logCell (g (r, c))

/-- The full scalar field of `IFSFractal.compute` (base.py): chaos-game
accumulation followed by log-scaling and normalization. -/
noncomputable def ifsComputeField (start : ℚ × ℚ) (w h : ℕ) (b : Bounds)
    (M : ℕ) (ts : List ((ℚ × ℚ) → ℚ × ℚ)) (σ : ℕ → ℕ) : List (List ℝ) :=
  ifsPost (ifsGrid start w h b M ts σ) w h

lemma sierLoop_le :
    ∀ (fuel tx ty i d : ℕ), sierLoop fuel tx ty i d ≤ max d (i + fuel) := by
  intro fuel
  induction fuel with
  | zero => intro tx ty i d; exact le_max_left d i
  | succ n ih =>
    intro tx ty i d
    rw [sierLoop]
    split_ifs with hc
    · exact le_max_of_le_right (by omega)
    · exact (ih (tx >>> 1) (ty >>> 1) (i + 1) d).trans
        (max_le_max le_rfl (by omega))

lemma sierpinskiPixelValue_mem (x y : ℚ) (N : ℕ) (hN : 1 ≤ N) :
    0 ≤ sierpinskiPixelValue x y N ∧ sierpinskiPixelValue x y N ≤ 1 := by
  unfold sierpinskiPixelValue
  split_ifs with hout
  · norm_num
  · have hN0 : (0 : ℝ) < N := by positivity
    constructor
    · positivity
    · rw [div_le_one hN0]
      have hle : sierLoop N (Int.toNat (truncQ (x * 2 ^ N)))
          (Int.toNat (truncQ (y * 2 ^ N))) 0 N ≤ N := by
        have := sierLoop_le N (Int.toNat (truncQ (x * 2 ^ N)))
          (Int.toNat (truncQ (y * 2 ^ N))) 0 N
        omega
      exact_mod_cast hle

lemma le_foldl_max (l : List ℝ) : ∀ a : ℝ,
    a ≤ l.foldl max a ∧ ∀ x ∈ l, x ≤ l.foldl max a := by
  induction l with
  | nil => intro a; simp
  | cons y t ih =>
    intro a
    refine ⟨le_trans (le_max_left a y) (ih (max a y)).1, ?_⟩
    intro x hx
    rcases List.mem_cons.mp hx with hxy | hxt
    · subst hxy
      exact le_trans (le_max_right a x) (ih (max a x)).1
    · exact (ih (max a y)).2 x hxt

lemma mem_gridCells (g : ℕ × ℕ → ℚ) (w h r c : ℕ) (hr : r < h) (hc : c < w) :
    g (r, c) ∈ gridCells g w h := by
  unfold gridCells
  refine List.mem_flatten.mpr ⟨(List.range w).map fun cc => g (r, cc), ?_, ?_⟩
  · exact List.mem_map_of_mem _ (List.mem_range.mpr hr)
  · exact List.mem_map_of_mem _ (List.mem_range.mpr hc)

lemma logCell_nonneg (q : ℚ) : 0 ≤ logCell q := by
  unfold logCell
  split_ifs with hq
  · apply Real.log_nonneg
    have : (0 : ℝ) < (q : ℝ) := by exact_mod_cast hq
    linarith
  · exact le_refl 0

lemma logCell_le_ifsPostMax (g : ℕ × ℕ → ℚ) (w h r c : ℕ)
    (hr : r < h) (hc : c < w) :
    logCell (g (r, c)) ≤ ifsPostMax g w h :=
  (le_foldl_max ((gridCells g w h).map logCell) 0).2 _
    (List.mem_map_of_mem logCell (mem_gridCells g w h r c hr hc))

lemma ifsPost_shape_mem (g : ℕ × ℕ → ℚ) (w h : ℕ) :
    (ifsPost g w h).length = h ∧
    (∀ row ∈ ifsPost g w h, row.length = w) ∧
    (∀ row ∈ ifsPost g w h, ∀ v ∈ row, 0 ≤ v ∧ v ≤ 1) := by
  unfold ifsPost
  split_ifs with hmx
  · refine ⟨by simp, ?_, ?_⟩
    · intro row hrow
      obtain ⟨r, -, rfl⟩ := List.mem_map.mp hrow
      simp
    · intro row hrow v hv
      obtain ⟨r, hr, rfl⟩ := List.mem_map.mp hrow
      obtain ⟨c, hc, rfl⟩ := List.mem_map.mp hv
      have hr2 := List.mem_range.mp hr
      have hc2 := List.mem_range.mp hc
      constructor
      · exact div_nonneg (logCell_nonneg _) (le_of_lt hmx)
      · rw [div_le_one hmx]
        exact logCell_le_ifsPostMax g w h r c hr2 hc2
  · refine ⟨by simp, ?_, ?_⟩
    · intro row hrow
      obtain ⟨r, -, rfl⟩ := List.mem_map.mp hrow
      simp
    · intro row hrow v hv
      obtain ⟨r, hr, rfl⟩ := List.mem_map.mp hrow
      obtain ⟨c, hc, rfl⟩ := List.mem_map.mp hv
      have hr2 := List.mem_range.mp hr
      have hc2 := List.mem_range.mp hc
      have h0 := logCell_nonneg (g (r, c))
      have hle := logCell_le_ifsPostMax g w h r c hr2 hc2
      push_neg at hmx
      constructor
      · exact h0
      · linarith

/-- The complex number with the given rational real/imaginary parts; used
to relate the componentwise kernel iteration to complex arithmetic. -/
noncomputable def toC (p : ℚ × ℚ) : ℂ := ⟨(p.1 : ℝ), (p.2 : ℝ)⟩

lemma normSq_toC (p : ℚ × ℚ) : Complex.normSq (toC p) = ((magSq p : ℚ) : ℝ) := by
  rw [toC, Complex.normSq_mk, magSq]
  push_cast
  ring

lemma abs_toC (p : ℚ × ℚ) :
    Complex.abs (toC p) = Real.sqrt ((magSq p : ℚ) : ℝ) := by
  rw [Complex.abs_apply, normSq_toC]

lemma toC_mandelStep (c z : ℚ × ℚ) :
    toC (mandelStep c z) = toC z * toC z + toC c := by
  apply Complex.ext <;>
    simp only [toC, mandelStep, Complex.add_re, Complex.add_im, Complex.mul_re,
      Complex.mul_im] <;>
    push_cast <;> ring

lemma two_lt_sqrt_magSq {z : ℚ × ℚ} (hz : 4 < magSq z) :
    2 < Real.sqrt ((magSq z : ℚ) : ℝ) := by
  have h4 : (4 : ℝ) < ((magSq z : ℚ) : ℝ) := by exact_mod_cast hz
  have hs := Real.sqrt_lt_sqrt (by norm_num) h4
  rwa [show Real.sqrt 4 = 2 by
    rw [show (4 : ℝ) = 2 ^ 2 by norm_num, Real.sqrt_sq (by norm_num)]] at hs

lemma sqrt_magSq_le_two {z : ℚ × ℚ} (hz : magSq z ≤ 4) :
    Real.sqrt ((magSq z : ℚ) : ℝ) ≤ 2 := by
  have h4 : ((magSq z : ℚ) : ℝ) ≤ 4 := by exact_mod_cast hz
  calc Real.sqrt ((magSq z : ℚ) : ℝ) ≤ Real.sqrt 4 := Real.sqrt_le_sqrt h4
    _ = 2 := by rw [show (4 : ℝ) = 2 ^ 2 by norm_num, Real.sqrt_sq (by norm_num)]

lemma mandel_escape_mag_le (c : ℚ × ℚ) (j : ℕ) (hj0 : 0 < j)
    (hprev : magSq ((mandelStep c)^[j - 1] (0, 0)) ≤ 4) :
    Real.sqrt ((magSq ((mandelStep c)^[j] (0, 0)) : ℚ) : ℝ)
      ≤ 4 + (|(c.1 : ℝ)| + |(c.2 : ℝ)|) := by
  obtain ⟨k, rfl⟩ : ∃ k, j = k + 1 := ⟨j - 1, by omega⟩
  simp only [Nat.add_sub_cancel] at hprev
  rw [Function.iterate_succ_apply', ← abs_toC, toC_mandelStep]
  have habsz : Complex.abs (toC ((mandelStep c)^[k] (0, 0))) ≤ 2 := by
    rw [abs_toC]
    exact sqrt_magSq_le_two hprev
  have habsc : Complex.abs (toC c) ≤ |(c.1 : ℝ)| + |(c.2 : ℝ)| := by
    have := Complex.abs_le_abs_re_add_abs_im (toC c)
    simpa [toC] using this
  calc Complex.abs (toC ((mandelStep c)^[k] (0, 0)) * toC ((mandelStep c)^[k] (0, 0)) + toC c)
      ≤ Complex.abs (toC ((mandelStep c)^[k] (0, 0)) * toC ((mandelStep c)^[k] (0, 0)))
        + Complex.abs (toC c) := Complex.abs.add_le _ _
    _ = Complex.abs (toC ((mandelStep c)^[k] (0, 0)))
        * Complex.abs (toC ((mandelStep c)^[k] (0, 0))) + Complex.abs (toC c) := by
        rw [map_mul]
    _ ≤ 2 * 2 + (|(c.1 : ℝ)| + |(c.2 : ℝ)|) := by
        have hnn := Complex.abs.nonneg (toC ((mandelStep c)^[k] (0, 0)))
        have := mul_le_mul habsz habsz hnn (by norm_num)
        linarith
    _ = 4 + (|(c.1 : ℝ)| + |(c.2 : ℝ)|) := by ring

lemma mandelValue_le (c : ℚ × ℚ) (N : ℕ) : mandelbrotValue c N ≤ N := by
  unfold mandelbrotValue
  cases hE : escapeLoop (mandelStep c) (0, 0) 0 N with
  | none => rw [smoothValue]
  | some p =>
    obtain ⟨j, hjN, hp, hesc, -⟩ := escapeLoop_some_inv _ N (0, 0) 0 p hE
    subst hp
    have hm := two_lt_sqrt_magSq hesc
    have h1 : 1 < Real.logb 2 (Real.sqrt ((magSq ((mandelStep c)^[j] (0, 0)) : ℚ) : ℝ)) := by
      have := Real.logb_lt_logb (b := 2) one_lt_two (by norm_num : (0 : ℝ) < 2) hm
      rwa [Real.logb_self_eq_one one_lt_two] at this
    have h2 : 0 < Real.logb 2 (Real.logb 2
        (Real.sqrt ((magSq ((mandelStep c)^[j] (0, 0)) : ℚ) : ℝ))) :=
      Real.logb_pos one_lt_two h1
    rw [smoothValue]
    have hjN2 : (j : ℝ) + 1 ≤ N := by exact_mod_cast hjN
    push_cast
    linarith

lemma logb2_four_plus (B : ℝ) (hB : 0 ≤ B) :
    1 ≤ Real.logb 2 (Real.logb 2 (4 + B)) := by
  have h4 : (4 : ℝ) ≤ 4 + B := by linarith
  have hl4 : Real.logb 2 (4 : ℝ) = 2 := by
    rw [show (4 : ℝ) = 2 ^ (2 : ℕ) by norm_num, Real.logb_pow,
      Real.logb_self_eq_one one_lt_two]
    norm_num
  have hl : 2 ≤ Real.logb 2 (4 + B) := by
    have hstep : Real.logb 2 (4 : ℝ) ≤ Real.logb 2 (4 + B) :=
      Real.logb_le_logb_of_le one_lt_two (by norm_num) h4
    rwa [hl4] at hstep
  calc (1 : ℝ) = Real.logb 2 2 := (Real.logb_self_eq_one one_lt_two).symm
    _ ≤ Real.logb 2 (Real.logb 2 (4 + B)) :=
        Real.logb_le_logb_of_le one_lt_two (by norm_num) hl

lemma mandelValue_lower (c : ℚ × ℚ) (N : ℕ) (B : ℝ)
    (hc : |(c.1 : ℝ)| + |(c.2 : ℝ)| ≤ B) :
    1 - Real.logb 2 (Real.logb 2 (4 + B)) ≤ mandelbrotValue c N := by
  have hB : 0 ≤ B := le_trans (by positivity) hc
  have hLmax := logb2_four_plus B hB
  unfold mandelbrotValue
  cases hE : escapeLoop (mandelStep c) (0, 0) 0 N with
  | none =>
    rw [smoothValue]
    have : (0 : ℝ) ≤ N := by positivity
    linarith
  | some p =>
    obtain ⟨j, hjN, hp, hesc, hmin⟩ := escapeLoop_some_inv _ N (0, 0) 0 p hE
    subst hp
    have hj0 : 0 < j := by
      by_contra hj
      push_neg at hj
      interval_cases j
      norm_num [magSq, Function.iterate_zero_apply] at hesc
    have hmle : Real.sqrt ((magSq ((mandelStep c)^[j] (0, 0)) : ℚ) : ℝ) ≤ 4 + B := by
      have := mandel_escape_mag_le c j hj0 (hmin (j - 1) (by omega))
      linarith
    have hm2 := two_lt_sqrt_magSq hesc
    have hlog1 : Real.logb 2 (Real.sqrt ((magSq ((mandelStep c)^[j] (0, 0)) : ℚ) : ℝ))
        ≤ Real.logb 2 (4 + B) :=
      Real.logb_le_logb_of_le one_lt_two (by linarith) hmle
    have hpos1 : 0 < Real.logb 2
        (Real.sqrt ((magSq ((mandelStep c)^[j] (0, 0)) : ℚ) : ℝ)) :=
      Real.logb_pos one_lt_two (by linarith)
    have hlog2 : Real.logb 2 (Real.logb 2
          (Real.sqrt ((magSq ((mandelStep c)^[j] (0, 0)) : ℚ) : ℝ)))
        ≤ Real.logb 2 (Real.logb 2 (4 + B)) :=
      Real.logb_le_logb_of_le one_lt_two hpos1 hlog1
    rw [smoothValue]
    have hj1 : (0 : ℝ) ≤ (j : ℝ) := by positivity
    push_cast
    linarith

lemma pixelCoord_bounds (lo hi : ℚ) (n px : ℕ) (hle : lo ≤ hi) (hn : 0 < n)
    (hpx : px < n) :
    lo ≤ pixelCoord lo hi n px ∧ pixelCoord lo hi n px ≤ hi := by
  unfold pixelCoord
  have hn0 : (0 : ℚ) < (n : ℚ) := by exact_mod_cast hn
  have hd : 0 ≤ (hi - lo) / n := div_nonneg (by linarith) (le_of_lt hn0)
  constructor
  · nlinarith [mul_nonneg (Nat.cast_nonneg px : (0 : ℚ) ≤ px) hd]
  · have hpxn : (px : ℚ) ≤ (n : ℚ) := by exact_mod_cast le_of_lt hpx
    have hmul : (px : ℚ) * ((hi - lo) / n) ≤ (n : ℚ) * ((hi - lo) / n) :=
      mul_le_mul_of_nonneg_right hpxn hd
    have hcancel : (n : ℚ) * ((hi - lo) / n) = hi - lo := by
      field_simp
    linarith

lemma pixelCoord_abs_le (lo hi : ℚ) (n px : ℕ) (hle : lo ≤ hi) (hn : 0 < n)
    (hpx : px < n) :
    |((pixelCoord lo hi n px : ℚ) : ℝ)| ≤ max |(lo : ℝ)| |(hi : ℝ)| := by
  obtain ⟨h1, h2⟩ := pixelCoord_bounds lo hi n px hle hn hpx
  have : |pixelCoord lo hi n px| ≤ max |lo| |hi| := abs_le_max_abs_abs h1 h2
  calc |((pixelCoord lo hi n px : ℚ) : ℝ)| = ((|pixelCoord lo hi n px| : ℚ) : ℝ) := by
        rw [Rat.cast_abs]
    _ ≤ ((max |lo| |hi| : ℚ) : ℝ) := by exact_mod_cast this
    _ = max |(lo : ℝ)| |(hi : ℝ)| := by
        rw [Rat.cast_max, Rat.cast_abs, Rat.cast_abs]

/-- C6: for valid bounds, positive resolution and budget N ≥ 1, each of the
three representative `compute` kernels returns a field of exactly
(height, width) values, and every value is finite — bounded in an explicit
interval: the Mandelbrot smooth values lie in
`[1 − log2(log2(4 + Bx + By)), N]` where `Bx`, `By` bound the pixel
coordinates, and the IFS density field and the analytic Sierpinski field
lie in [0, 1]. -/
theorem c6_compute_shape_finite (b : Bounds) (w h N M : ℕ) (start : ℚ × ℚ)
    (ts : List ((ℚ × ℚ) → ℚ × ℚ)) (σ : ℕ → ℕ)
    (hx : b.xmin < b.xmax) (hy : b.ymin < b.ymax) (hw : 0 < w) (hh : 0 < h)
    (hN : 1 ≤ N) :
    ((mandelbrotField b w h N).length = h ∧
      (∀ row ∈ mandelbrotField b w h N, row.length = w) ∧
      (∀ row ∈ mandelbrotField b w h N, ∀ v ∈ row,
        1 - Real.logb 2 (Real.logb 2 (4 + (max |(b.xmin : ℝ)| |(b.xmax : ℝ)|
            + max |(b.ymin : ℝ)| |(b.ymax : ℝ)|))) ≤ v ∧ v ≤ N)) ∧
    ((ifsComputeField start w h b M ts σ).length = h ∧
      (∀ row ∈ ifsComputeField start w h b M ts σ, row.length = w) ∧
      (∀ row ∈ ifsComputeField start w h b M ts σ, ∀ v ∈ row,
        0 ≤ v ∧ v ≤ 1)) ∧
    ((sierpinskiEscField b w h N).length = h ∧
      (∀ row ∈ sierpinskiEscField b w h N, row.length = w) ∧
      (∀ row ∈ sierpinskiEscField b w h N, ∀ v ∈ row, 0 ≤ v ∧ v ≤ 1)) := by
  refine ⟨⟨by simp [mandelbrotField], ?_, ?_⟩,
    ifsPost_shape_mem (ifsGrid start w h b M ts σ) w h,
    ⟨by simp [sierpinskiEscField], ?_, ?_⟩⟩
  · intro row hrow
    obtain ⟨py, -, rfl⟩ := List.mem_map.mp hrow
    simp
  · intro row hrow v hv
    obtain ⟨py, hpy, rfl⟩ := List.mem_map.mp hrow
    obtain ⟨px, hpx, rfl⟩ := List.mem_map.mp hv
    have hpy2 := List.mem_range.mp hpy
    have hpx2 := List.mem_range.mp hpx
    have hcx := pixelCoord_abs_le b.xmin b.xmax w px (le_of_lt hx) hw hpx2
    have hcy := pixelCoord_abs_le b.ymin b.ymax h py (le_of_lt hy) hh hpy2
    constructor
    · exact mandelValue_lower _ N _ (by
        push_cast
        have := add_le_add hcx hcy
        linarith)
    · exact mandelValue_le _ N
  · intro row hrow
    obtain ⟨py, -, rfl⟩ := List.mem_map.mp hrow
    simp
  · intro row hrow v hv
    obtain ⟨py, hpy, rfl⟩ := List.mem_map.mp hrow
    obtain ⟨px, hpx, rfl⟩ := List.mem_map.mp hv
    exact sierpinskiPixelValue_mem _ _ N hN

/-- C6 witness: the shape/finiteness theorem applied to concrete bounds
(0,1,0,1) on a 1×1 canvas with budget 1. -/
theorem c6_compute_shape_finite_witness :
    (mandelbrotField ⟨0, 1, 0, 1⟩ 1 1 1).length = 1 ∧
    (ifsComputeField (0, 0) 1 1 ⟨0, 1, 0, 1⟩ 0 [] (fun _ => 0)).length = 1 ∧
    (sierpinskiEscField ⟨0, 1, 0, 1⟩ 1 1 1).length = 1 :=
  ⟨(c6_compute_shape_finite ⟨0, 1, 0, 1⟩ 1 1 1 0 (0, 0) [] (fun _ => 0)
      (by norm_num) (by norm_num) (by norm_num) (by norm_num) (by norm_num)).1.1,
   (c6_compute_shape_finite ⟨0, 1, 0, 1⟩ 1 1 1 0 (0, 0) [] (fun _ => 0)
      (by norm_num) (by norm_num) (by norm_num) (by norm_num) (by norm_num)).2.1.1,
   (c6_compute_shape_finite ⟨0, 1, 0, 1⟩ 1 1 1 0 (0, 0) [] (fun _ => 0)
      (by norm_num) (by norm_num) (by norm_num) (by norm_num) (by norm_num)).2.2.1⟩
